import Mathlib

/-!
Shallow embedding of `src/eva_data_analysis.py` (an EVA spacewalk data
pipeline built on pandas) and proofs about its core transformations.

Strings are modelled as `List Char`; Python floats are modelled as `ℚ`
(every arithmetic operation the program performs is an exact integer
addition or a division by 60, so the rational model mirrors the formula
structure of the code); fallible Python code (code that can raise) is
modelled with `Option`.
-/

/-- Python whitespace test restricted to the six ASCII whitespace
characters (`str.isspace` / `str.strip` / `str.split()` semantics for
ASCII input, which is what the loader enforces via its encoding). -/
def pySpace (c : Char) : Bool :=
  (c == ' ') || (c == '\t') || (c == '\n') || (c == '\r') || (c == '\x0b') || (c == '\x0c')

/-- Python `s.split(sep)` for a one-character separator `p` (also the
behaviour of `re.split` on a single literal character): cut at every
separator occurrence, keeping empty pieces.  Always returns at least one
piece; `split` of the empty string is `[[]]`. -/
def splitP (p : Char → Bool) : List Char → List (List Char)
  | [] => [[]]
  | c :: cs =>
    if p c then [] :: splitP p cs
    else (c :: (splitP p cs).headI) :: (splitP p cs).tail

/-- The separator predicate for `split(":")` in `text_to_duration`. -/
def colonP (c : Char) : Bool := c == ':'

/-- The separator predicate for `split(';')` / `re.split(r';', ...)`. -/
def semiP (c : Char) : Bool := c == ';'

/-- Python `s.strip()`: remove leading and trailing whitespace. -/
def pyStrip (s : List Char) : List Char :=
  ((s.dropWhile pySpace).reverse.dropWhile pySpace).reverse

/-- Numeric value of a digit string (most significant digit first). -/
def digitsToNat (s : List Char) : ℕ :=
  s.foldl (fun n c => 10 * n + (c.toNat - 48)) 0

/-- Decimal-digit-string parser: succeeds exactly on nonempty all-digit
strings (the unsigned core of Python `int`). -/
def parseDigits (s : List Char) : Option ℕ :=
  if s ≠ [] ∧ s.all Char.isDigit then some (digitsToNat s) else none

/-- Python `int(s)` on ASCII input: strip surrounding whitespace, accept
an optional single leading sign, then require a nonempty digit string;
raise (here: `none`) otherwise.  (Underscore digit grouping and non-ASCII
digits, which no data in this pipeline uses, are not modelled.) -/
def pyInt (s : List Char) : Option ℤ :=
  match pyStrip s with
  | [] => none
  | c :: rest =>
    if c == '-' then (parseDigits rest).map (fun n => -(n : ℤ))
    else if c == '+' then (parseDigits rest).map (fun n => (n : ℤ))
    else (parseDigits (c :: rest)).map (fun n => (n : ℤ))

/-- Embedding of `text_to_duration` (src/eva_data_analysis.py:91-103):
`hours, minutes = duration.split(":")` demands exactly two pieces (any
other shape raises a `ValueError`), each piece goes through `int`, and
the result is `int(hours) + int(minutes)/60`. -/
def text_to_duration (duration : List Char) : Option ℚ :=
  match splitP colonP duration with
  | [hours, minutes] =>
    (pyInt hours).bind fun h => (pyInt minutes).bind fun m =>
      some ((h : ℚ) + (m : ℚ) / 60)
  | _ => none

lemma splitP_ne_nil (p : Char → Bool) (s : List Char) : splitP p s ≠ [] := by
  cases s with
  | nil => simp [splitP]
  | cons c cs =>
    by_cases hc : p c = true
    · simp [splitP, hc]
    · simp [splitP, hc]

lemma splitP_eq_single (p : Char → Bool) (s : List Char)
    (h : ∀ c ∈ s, p c = false) : splitP p s = [s] := by
  induction s with
  | nil => rfl
  | cons c cs ih =>
    have hc : p c = false := h c (List.mem_cons_self c cs)
    have hrest : splitP p cs = [cs] := ih (fun x hx => h x (List.mem_cons_of_mem c hx))
    simp [splitP, hc, hrest]

lemma splitP_append_no_sep (p : Char → Bool) (h t : List Char)
    (hh : ∀ c ∈ h, p c = false) :
    splitP p (h ++ t) = (h ++ (splitP p t).headI) :: (splitP p t).tail := by
  induction h with
  | nil =>
    rcases hs : splitP p t with _ | ⟨piece, rest⟩
    · exact absurd hs (splitP_ne_nil p t)
    · simp [hs]
  | cons c h' ih =>
    have hc : p c = false := hh c (List.mem_cons_self c h')
    have ih' := ih (fun x hx => hh x (List.mem_cons_of_mem c hx))
    simp [splitP, hc, ih']

lemma splitP_two_pieces (p : Char → Bool) (h m : List Char) (x : Char)
    (hh : ∀ c ∈ h, p c = false) (hm : ∀ c ∈ m, p c = false) (hx : p x = true) :
    splitP p (h ++ x :: m) = [h, m] := by
  have hxm : splitP p (x :: m) = [] :: [m] := by
    simp [splitP, hx, splitP_eq_single p m hm]
  rw [splitP_append_no_sep p h (x :: m) hh, hxm]
  simp

/-- C1: `text_to_duration` returns `hours + minutes/60` for any input made
of an integer hour part, exactly one colon and an integer minute part; it
maps the string 02:30 to 5/2 and 10:00 to 10; and it fails (raises, here
`none`) when the separator is absent — e.g. on the string bad — when
either side is not an integer, or when the input is empty. -/
theorem text_to_duration_spec :
    (∀ hs ms H M, (∀ c ∈ hs, colonP c = false) → (∀ c ∈ ms, colonP c = false) →
      pyInt hs = some H → pyInt ms = some M →
      text_to_duration (hs ++ ':' :: ms) = some ((H : ℚ) + (M : ℚ) / 60))
    ∧ text_to_duration ("02:30".toList) = some (5/2)
    ∧ text_to_duration ("10:00".toList) = some 10
    ∧ (∀ s, (∀ c ∈ s, colonP c = false) → text_to_duration s = none)
    ∧ (∀ hs ms, (∀ c ∈ hs, colonP c = false) → (∀ c ∈ ms, colonP c = false) →
        (pyInt hs = none ∨ pyInt ms = none) → text_to_duration (hs ++ ':' :: ms) = none)
    ∧ text_to_duration ("bad".toList) = none
    ∧ text_to_duration ([] : List Char) = none := by
  refine ⟨?_, ?_, ?_, ?_, ?_, by decide, by decide⟩
  · intro hs ms H M hh hm hH hM
    have hcolon : colonP ':' = true := by decide
    unfold text_to_duration
    rw [splitP_two_pieces colonP hs ms ':' hh hm hcolon]
    show ((pyInt hs).bind fun h => (pyInt ms).bind fun m =>
      some ((h : ℚ) + (m : ℚ) / 60)) = some ((H : ℚ) + (M : ℚ) / 60)
    rw [hH, hM]
    rfl
  · show some (((2:ℤ):ℚ) + ((30:ℤ):ℚ)/60) = some (5/2)
    norm_num
  · show some (((10:ℤ):ℚ) + ((0:ℤ):ℚ)/60) = some 10
    norm_num
  · intro s hs
    unfold text_to_duration
    rw [splitP_eq_single colonP s hs]
  · intro hs ms hh hm hbad
    have hcolon : colonP ':' = true := by decide
    unfold text_to_duration
    rw [splitP_two_pieces colonP hs ms ':' hh hm hcolon]
    show ((pyInt hs).bind fun h => (pyInt ms).bind fun m =>
      some ((h : ℚ) + (m : ℚ) / 60)) = none
    rcases hbad with hb | hb
    · rw [hb]
      rfl
    · cases hps : pyInt hs <;> simp [hps, hb]

theorem text_to_duration_spec_witness :
    text_to_duration ("02".toList ++ ':' :: "30".toList) =
      some (((2:ℤ):ℚ) + ((30:ℤ):ℚ) / 60) :=
  text_to_duration_spec.1 ("02".toList) ("30".toList) 2 30
    (by decide) (by decide) (by decide) (by decide)

lemma splitP_trailing_sep (p : Char → Bool) (s : List Char) (x : Char)
    (hx : p x = true) : splitP p (s ++ [x]) = splitP p s ++ [[]] := by
  induction s with
  | nil => simp [splitP, hx]
  | cons c cs ih =>
    by_cases hc : p c = true
    · simp [splitP, hc, ih]
    · rcases hs : splitP p cs with _ | ⟨piece, rest⟩
      · exact absurd hs (splitP_ne_nil p cs)
      · simp [splitP, hc, ih, hs]

/-- Embedding of the crew-splitting step of `summary_duration_by_astronaut`
(src/eva_data_analysis.py:167), that is
`crew.str.split(';').apply(lambda x: [i for i in x if i.strip()])` applied
to one crew string: split on the semicolon, then keep the pieces whose
strip is nonempty.  The kept pieces are the raw pieces `i`, verbatim and
untrimmed — the comprehension filters on `i.strip()` but yields `i`. -/
def splitCrew (raw : List Char) : List (List Char) :=
  (splitP semiP raw).filter (fun i => !(pyStrip i).isEmpty)

/-- C2 counterexample: contrary to the claim, `splitCrew` does not trim
surrounding whitespace from the retained pieces. -/
theorem splitCrew_not_trimmed :
    splitCrew ("  Alice ; Bob".toList) ≠ ["Alice".toList, "Bob".toList] := by decide

/-- C2 (amended): `splitCrew` splits the raw crew string on the semicolon
and discards the pieces that are empty after trimming (in particular a
trailing separator is absorbed), but the retained pieces are kept
verbatim, with their surrounding whitespace: Alice;Bob; yields the names
Alice and Bob, the empty string yields no names, and two-spaces-Alice
-space-semicolon-space-Bob yields the untrimmed pieces (each retained
piece is a raw piece of the split whose trim is nonempty). -/
theorem splitCrew_spec :
    (∀ s : List Char, splitCrew (s ++ [';']) = splitCrew s)
    ∧ (∀ s piece, piece ∈ splitCrew s → piece ∈ splitP semiP s ∧ pyStrip piece ≠ [])
    ∧ splitCrew ("Alice;Bob;".toList) = ["Alice".toList, "Bob".toList]
    ∧ splitCrew ([] : List Char) = []
    ∧ splitCrew ("  Alice ; Bob".toList) = ["  Alice ".toList, " Bob".toList] := by
  refine ⟨?_, ?_, by decide, by decide, by decide⟩
  · intro s
    have hsemi : semiP ';' = true := by decide
    simp [splitCrew, splitP_trailing_sep semiP s ';' hsemi, List.filter_append, pyStrip]
  · intro s piece hmem
    have h := List.mem_filter.mp hmem
    refine ⟨h.1, ?_⟩
    simpa using h.2

theorem splitCrew_spec_witness :
    " Bob".toList ∈ splitP semiP ("  Alice ; Bob".toList) ∧ pyStrip (" Bob".toList) ≠ [] :=
  splitCrew_spec.2.1 ("  Alice ; Bob".toList) (" Bob".toList) (by decide)

/-- Python `crew.split()` with no separator argument: split on whitespace
runs and drop the empty pieces; the result is the empty list exactly when
the string has no non-whitespace character. -/
def pySplitWs (s : List Char) : List (List Char) :=
  (splitP pySpace s).filter (fun t => !t.isEmpty)

/-- Embedding of `calculate_crew_size` (src/eva_data_analysis.py:123-136):
`if crew.split() == []: return None` and otherwise
`return len(re.split(r';', crew)) - 1` (the piece count is always at
least one, so the subtraction never truncates). -/
def calculate_crew_size (crew : List Char) : Option ℕ :=
  if pySplitWs crew = [] then none
  else some ((splitP semiP crew).length - 1)

lemma pySplitWs_eq_nil_iff (s : List Char) :
    pySplitWs s = [] ↔ s.all pySpace = true := by
  induction s with
  | nil => simp [pySplitWs, splitP]
  | cons c cs ih =>
    by_cases hc : pySpace c = true
    · simp only [pySplitWs, splitP, hc, if_true, List.filter_cons, List.isEmpty_nil,
        Bool.not_true, Bool.false_eq_true, if_false, List.all_cons, Bool.true_and]
      simpa [pySplitWs] using ih
    · simp [pySplitWs, splitP, hc]

/-- C6: `calculate_crew_size` returns the absent value for every raw
string that is empty or whitespace-only, and for every other raw string
returns the number of semicolon-delimited segments minus one — it counts
separators, not filtered names — so string A;B; yields 2 while A;B
yields 1, undercounting the length of the decomposed crew list (which is
2 for A;B) when there is no trailing separator. -/
theorem calculate_crew_size_spec :
    (∀ s, s.all pySpace = true → calculate_crew_size s = none)
    ∧ (∀ s, ¬ s.all pySpace = true →
        calculate_crew_size s = some ((splitP semiP s).length - 1))
    ∧ calculate_crew_size ("A;B;".toList) = some 2
    ∧ calculate_crew_size ("A;B".toList) = some 1
    ∧ (splitCrew ("A;B".toList)).length = 2 := by
  refine ⟨?_, ?_, by decide, by decide, by decide⟩
  · intro s hs
    unfold calculate_crew_size
    rw [if_pos ((pySplitWs_eq_nil_iff s).mpr hs)]
  · intro s hs
    unfold calculate_crew_size
    rw [if_neg (fun h => hs ((pySplitWs_eq_nil_iff s).mp h))]

theorem calculate_crew_size_spec_witness :
    calculate_crew_size ("  ".toList) = none
    ∧ calculate_crew_size ("A".toList) = some ((splitP semiP ("A".toList)).length - 1) :=
  ⟨calculate_crew_size_spec.1 ("  ".toList) (by decide),
   calculate_crew_size_spec.2.1 ("A".toList) (by decide)⟩

/-- Raw input record as `pd.read_json` materializes it
(src/eva_data_analysis.py:41): `eva` already coerced to a float (the
`astype(float)` step; a non-numeric value aborts the run before the
dropna and is outside this model), while `date` and `duration` may be
missing (pandas null), and `crew` is the raw crew string. -/
structure RawRecord where
  eva : ℚ
  date : Option ℤ
  duration : Option (List Char)
  crew : List Char
deriving DecidableEq

/-- Embedding of the cleaning step of `read_json_to_dataframe`
(src/eva_data_analysis.py:45): `dropna(axis=0, subset=['duration',
'date'])` keeps exactly the rows where both fields are present; it raises
nothing and reports nothing. -/
def read_json_to_dataframe (rows : List RawRecord) : List RawRecord :=
  rows.filter (fun r => r.duration.isSome && r.date.isSome)

/-- C5: every record retained by the loader has non-null date and
non-null duration; a raw record missing either field is excluded
silently, records with both fields are retained, and the output is a
sublist of the input (nothing is added, reordered or reported). -/
theorem read_json_to_dataframe_spec (rows : List RawRecord) :
    (∀ r ∈ read_json_to_dataframe rows, r.date.isSome = true ∧ r.duration.isSome = true)
    ∧ (∀ r, (r.date.isSome = false ∨ r.duration.isSome = false) →
        r ∉ read_json_to_dataframe rows)
    ∧ (∀ r ∈ rows, r.date.isSome = true → r.duration.isSome = true →
        r ∈ read_json_to_dataframe rows)
    ∧ List.Sublist (read_json_to_dataframe rows) rows := by
  refine ⟨?_, ?_, ?_, List.filter_sublist rows⟩
  · intro r hr
    have h := (List.mem_filter.mp hr).2
    simp only [Bool.and_eq_true] at h
    exact ⟨h.2, h.1⟩
  · intro r hbad hr
    have h := (List.mem_filter.mp hr).2
    simp only [Bool.and_eq_true] at h
    rcases hbad with hb | hb
    · rw [h.2] at hb; cases hb
    · rw [h.1] at hb; cases hb
  · intro r hr hdate hdur
    exact List.mem_filter.mpr ⟨hr, by simp [hdate, hdur]⟩

theorem read_json_to_dataframe_spec_witness :
    (⟨1, some 0, some ("1:00".toList), "A".toList⟩ : RawRecord) ∈
      read_json_to_dataframe
        [⟨1, some 0, some ("1:00".toList), "A".toList⟩,
         ⟨2, none, some ("2:00".toList), "B".toList⟩] :=
  (read_json_to_dataframe_spec
      [⟨1, some 0, some ("1:00".toList), "A".toList⟩,
       ⟨2, none, some ("2:00".toList), "B".toList⟩]).2.2.1
    ⟨1, some 0, some ("1:00".toList), "A".toList⟩ (by decide) (by decide) (by decide)

/-- Cleaned record as the downstream stages consume it: non-null date,
duration text and raw crew string (other columns are passthrough and
play no role in the claims). -/
structure EvaRecord where
  date : ℤ
  duration : List Char
  crew : List Char
deriving DecidableEq

/-- Columnwise `df["duration"].apply(text_to_duration)` over rows carrying
a payload `a` next to their duration text: parse every duration,
propagating failure (an exception in `apply` aborts the whole call). -/
def applyParse {α : Type} : List (α × List Char) → Option (List (α × ℚ))
  | [] => some []
  | (a, d) :: rest =>
    (text_to_duration d).bind fun q =>
      (applyParse rest).map fun qs => (a, q) :: qs

lemma applyParse_some_shape {α : Type} (l : List (α × List Char)) (out : List (α × ℚ))
    (h : applyParse l = some out) :
    (∀ p ∈ l, (text_to_duration p.2).isSome = true) ∧
    out = l.map (fun p => (p.1, (text_to_duration p.2).getD 0)) := by
  induction l generalizing out with
  | nil =>
    simp only [applyParse, Option.some_inj] at h
    subst h
    simp
  | cons p rest ih =>
    obtain ⟨a, d⟩ := p
    rcases htd : text_to_duration d with _ | q
    · rw [applyParse, htd] at h
      simp at h
    · rw [applyParse, htd] at h
      rcases hr : applyParse rest with _ | os
      · rw [hr] at h
        simp at h
      · rw [hr] at h
        simp at h
        obtain ⟨hall, hshape⟩ := ih os hr
        subst h
        constructor
        · intro x hx
          rcases List.mem_cons.mp hx with hx | hx
          · subst hx
            simp [htd]
          · exact hall x hx
        · simp [htd, hshape]

lemma applyParse_eq_some_of_parses {α : Type} (l : List (α × List Char))
    (h : ∀ p ∈ l, (text_to_duration p.2).isSome = true) :
    applyParse l = some (l.map (fun p => (p.1, (text_to_duration p.2).getD 0))) := by
  induction l with
  | nil => rfl
  | cons p rest ih =>
    obtain ⟨a, d⟩ := p
    have hp : (text_to_duration d).isSome = true := h (a, d) (List.mem_cons_self _ _)
    rcases htd : text_to_duration d with _ | q
    · rw [htd] at hp
      cases hp
    · rw [applyParse, htd, ih (fun x hx => h x (List.mem_cons_of_mem _ hx))]
      simp [htd]

/-- Embedding of `add_duration_hours` (src/eva_data_analysis.py:106-120):
`df.copy()` plus a new `duration_hours` column obtained by applying
`text_to_duration` to the `duration` column; each result row pairs the
original record with its `duration_hours` value. -/
def add_duration_hours (df : List EvaRecord) : Option (List (EvaRecord × ℚ)) :=
  applyParse (df.map (fun r => (r, r.duration)))

/-- State-passing view of one call `add_duration_hours(df)`: the code
takes `df.copy()` first and assigns the new column on the copy only, so
the caller's dataframe after the call (first component) is the argument
unchanged; the second component is the returned extended copy. -/
def add_duration_hours_call (df : List EvaRecord) :
    Option (List EvaRecord × List (EvaRecord × ℚ)) :=
  (add_duration_hours df).map (fun out => (df, out))

/-- C9: `add_duration_hours` computes the `duration_hours` column into a
new record view and never mutates its input: after a successful call the
caller's dataframe is the unchanged input (no column was added to it),
and the returned copy is exactly the input extended rowwise with the
parsed `duration_hours` value. -/
theorem add_duration_hours_pure (df post : List EvaRecord)
    (out : List (EvaRecord × ℚ)) (h : add_duration_hours_call df = some (post, out)) :
    post = df
    ∧ out.map Prod.fst = df
    ∧ out = df.map (fun r => (r, (text_to_duration r.duration).getD 0))
    ∧ ∀ p ∈ out, text_to_duration p.1.duration = some p.2 := by
  rcases ha : add_duration_hours df with _ | o
  · rw [add_duration_hours_call, ha] at h
    cases h
  · rw [add_duration_hours_call, ha] at h
    simp only [Option.map_some', Option.some_inj, Prod.mk.injEq] at h
    obtain ⟨hpost, hout⟩ := h
    obtain ⟨hall, hshape⟩ := applyParse_some_shape _ o ha
    subst hpost hout
    refine ⟨rfl, ?_, ?_, ?_⟩
    · rw [hshape]
      simp only [List.map_map]
      exact List.map_id df
    · rw [hshape, List.map_map]
      rfl
    · intro p hp
      rw [hshape] at hp
      simp only [List.map_map, List.mem_map, Function.comp] at hp
      obtain ⟨r, hr, hpr⟩ := hp
      have hsome : (text_to_duration r.duration).isSome = true := by
        refine hall (r, r.duration) ?_
        exact List.mem_map.mpr ⟨r, hr, rfl⟩
      rcases htd : text_to_duration r.duration with _ | q
      · rw [htd] at hsome
        cases hsome
      · subst hpr
        simp [htd]

theorem add_duration_hours_pure_witness :
    ([(⟨0, "1:00".toList, "A".toList⟩, ((1:ℤ):ℚ) + ((0:ℤ):ℚ)/60)].map Prod.fst
      : List EvaRecord) = [⟨0, "1:00".toList, "A".toList⟩] :=
  (add_duration_hours_pure [⟨0, "1:00".toList, "A".toList⟩]
    [⟨0, "1:00".toList, "A".toList⟩]
    [(⟨0, "1:00".toList, "A".toList⟩, ((1:ℤ):ℚ) + ((0:ℤ):ℚ)/60)] (by rfl)).2.1

/-- Strict lexicographic order on strings by character code point: the
order in which pandas sorts string group keys. -/
def lexLt : List Char → List Char → Bool
  | _, [] => false
  | [], _ :: _ => true
  | a :: as, b :: bs =>
    if a < b then true else if b < a then false else lexLt as bs

/-- Propositional form of `lexLt`. -/
def lexLtP (a b : List Char) : Prop := lexLt a b = true

lemma lexLt_irrefl (a : List Char) : lexLt a a = false := by
  induction a with
  | nil => rfl
  | cons c cs ih =>
    unfold lexLt
    rw [if_neg (lt_irrefl c), if_neg (lt_irrefl c), ih]

lemma lexLt_trans (a b c : List Char) (h1 : lexLt a b = true) (h2 : lexLt b c = true) :
    lexLt a c = true := by
  induction a generalizing b c with
  | nil =>
    cases b with
    | nil => simp [lexLt] at h1
    | cons b0 bs =>
      cases c with
      | nil => simp [lexLt] at h2
      | cons c0 cs => simp [lexLt]
  | cons a0 as ih =>
    cases b with
    | nil => simp [lexLt] at h1
    | cons b0 bs =>
      cases c with
      | nil => simp [lexLt] at h2
      | cons c0 cs =>
        unfold lexLt at h1 h2 ⊢
        by_cases hab : a0 < b0
        · by_cases hbc : b0 < c0
          · rw [if_pos (lt_trans hab hbc)]
          · rw [if_neg hbc] at h2
            by_cases hcb : c0 < b0
            · rw [if_pos hcb] at h2
              cases h2
            · have heq : b0 = c0 := le_antisymm (le_of_not_lt hcb) (le_of_not_lt hbc)
              subst heq
              rw [if_pos hab]
        · rw [if_neg hab] at h1
          by_cases hba : b0 < a0
          · rw [if_pos hba] at h1
            cases h1
          · rw [if_neg hba] at h1
            have heq : a0 = b0 := le_antisymm (le_of_not_lt hba) (le_of_not_lt hab)
            subst heq
            by_cases hac : a0 < c0
            · rw [if_pos hac]
            · rw [if_neg hac] at h2 ⊢
              by_cases hca : c0 < a0
              · rw [if_pos hca] at h2
                cases h2
              · rw [if_neg hca] at h2 ⊢
                exact ih bs cs h1 h2

lemma lexLt_connex (a b : List Char) (hne : a ≠ b) (hnot : ¬ lexLt a b = true) :
    lexLt b a = true := by
  induction a generalizing b with
  | nil =>
    cases b with
    | nil => exact absurd rfl hne
    | cons b0 bs => exact absurd rfl hnot
  | cons a0 as ih =>
    cases b with
    | nil => rfl
    | cons b0 bs =>
      unfold lexLt at hnot ⊢
      by_cases hab : a0 < b0
      · exact absurd (by rw [if_pos hab]) hnot
      · rw [if_neg hab] at hnot
        by_cases hba : b0 < a0
        · rw [if_pos hba]
        · rw [if_neg hba] at hnot ⊢
          have heq : a0 = b0 := le_antisymm (le_of_not_lt hba) (le_of_not_lt hab)
          subst heq
          rw [if_neg (lt_irrefl a0)]
          refine ih bs ?_ hnot
          intro h
          exact hne (by rw [h])

/-- Sorted-by-key insertion of one (key, value) row into the running
grouped table; an existing key accumulates its value in place, a new key
enters at its ascending-order position.  Folding every row of the
exploded frame through this realizes pandas `groupby('crew').sum()`
(src/eva_data_analysis.py:172): groups are summed over rows in order and
emitted ascending by key. -/
def insertSum (k : List Char) (v : ℚ) : List (List Char × ℚ) → List (List Char × ℚ)
  | [] => [(k, v)]
  | (k', v') :: rest =>
    if lexLt k k' then (k, v) :: (k', v') :: rest
    else if k = k' then (k', v' + v) :: rest
    else (k', v') :: insertSum k v rest

/-- Model of `groupby('crew').sum()` on a list of (key, value) rows. -/
def groupSum (rows : List (List Char × ℚ)) : List (List Char × ℚ) :=
  rows.foldl (fun acc p => insertSum p.1 p.2 acc) []

lemma mem_keys_insertSum (k : List Char) (v : ℚ) (l : List (List Char × ℚ))
    (x : List Char) (hx : x ∈ (insertSum k v l).map Prod.fst) :
    x = k ∨ x ∈ l.map Prod.fst := by
  induction l with
  | nil => simpa [insertSum] using hx
  | cons p rest ih =>
    obtain ⟨k', v'⟩ := p
    rw [insertSum] at hx
    by_cases h1 : lexLt k k' = true
    · rw [if_pos h1] at hx
      simp only [List.map_cons, List.mem_cons] at hx
      rcases hx with hx | hx | hx
      · exact Or.inl hx
      · exact Or.inr (by simp [hx])
      · exact Or.inr (by simp [hx])
    · rw [if_neg h1] at hx
      by_cases h2 : k = k'
      · rw [if_pos h2] at hx
        simp only [List.map_cons, List.mem_cons] at hx
        rcases hx with hx | hx
        · exact Or.inr (by simp [hx])
        · exact Or.inr (by simp [hx])
      · rw [if_neg h2] at hx
        simp only [List.map_cons, List.mem_cons] at hx
        rcases hx with hx | hx
        · exact Or.inr (by simp [hx])
        · rcases ih hx with hx' | hx'
          · exact Or.inl hx'
          · exact Or.inr (by simp [hx'])

lemma pairwise_insertSum (k : List Char) (v : ℚ) (l : List (List Char × ℚ))
    (hl : (l.map Prod.fst).Pairwise lexLtP) :
    ((insertSum k v l).map Prod.fst).Pairwise lexLtP := by
  induction l with
  | nil => simp [insertSum]
  | cons p rest ih =>
    obtain ⟨k', v'⟩ := p
    simp only [List.map_cons, List.pairwise_cons] at hl
    obtain ⟨hk', hrest⟩ := hl
    rw [insertSum]
    by_cases h1 : lexLt k k' = true
    · rw [if_pos h1]
      simp only [List.map_cons, List.pairwise_cons]
      refine ⟨?_, hk', hrest⟩
      intro y hy
      rcases List.mem_cons.mp hy with hy | hy
      · subst hy
        exact h1
      · exact lexLt_trans k k' y h1 (hk' y hy)
    · rw [if_neg h1]
      by_cases h2 : k = k'
      · rw [if_pos h2]
        simp only [List.map_cons, List.pairwise_cons]
        exact ⟨hk', hrest⟩
      · have hlt : lexLt k' k = true := lexLt_connex k k' h2 h1
        rw [if_neg h2]
        simp only [List.map_cons, List.pairwise_cons]
        refine ⟨?_, ih hrest⟩
        intro y hy
        rcases mem_keys_insertSum k v rest y hy with hy' | hy'
        · subst hy'
          exact hlt
        · exact hk' y hy'

lemma sum_snd_insertSum (k : List Char) (v : ℚ) (l : List (List Char × ℚ)) :
    ((insertSum k v l).map Prod.snd).sum = v + (l.map Prod.snd).sum := by
  induction l with
  | nil => simp [insertSum]
  | cons p rest ih =>
    obtain ⟨k', v'⟩ := p
    rw [insertSum]
    by_cases h1 : lexLt k k' = true
    · rw [if_pos h1]
      simp only [List.map_cons, List.sum_cons]
    · rw [if_neg h1]
      by_cases h2 : k = k'
      · rw [if_pos h2]
        simp only [List.map_cons, List.sum_cons]
        ring
      · rw [if_neg h2]
        simp only [List.map_cons, List.sum_cons, ih]
        ring

lemma pairwise_groupSum_aux (l acc : List (List Char × ℚ))
    (hacc : (acc.map Prod.fst).Pairwise lexLtP) :
    (((l.foldl (fun a p => insertSum p.1 p.2 a) acc)).map Prod.fst).Pairwise lexLtP := by
  induction l generalizing acc with
  | nil => simpa using hacc
  | cons p rest ih => exact ih _ (pairwise_insertSum p.1 p.2 acc hacc)

lemma pairwise_groupSum (rows : List (List Char × ℚ)) :
    ((groupSum rows).map Prod.fst).Pairwise lexLtP :=
  pairwise_groupSum_aux rows [] (by simp)

lemma sum_snd_groupSum_aux (l acc : List (List Char × ℚ)) :
    (((l.foldl (fun a p => insertSum p.1 p.2 a) acc)).map Prod.snd).sum
      = (acc.map Prod.snd).sum + (l.map Prod.snd).sum := by
  induction l generalizing acc with
  | nil => simp
  | cons p rest ih =>
    simp only [List.foldl_cons, List.map_cons, List.sum_cons]
    rw [ih (insertSum p.1 p.2 acc), sum_snd_insertSum]
    ring

lemma sum_snd_groupSum (rows : List (List Char × ℚ)) :
    ((groupSum rows).map Prod.snd).sum = (rows.map Prod.snd).sum := by
  have h := sum_snd_groupSum_aux rows []
  simpa [groupSum] using h

lemma lexLtP_ne (a b : List Char) (h : lexLtP a b) : a ≠ b := by
  intro he
  subst he
  rw [lexLtP, lexLt_irrefl] at h
  cases h

/-- Rows produced from one record by `subset.explode('crew')`
(src/eva_data_analysis.py:168) after the crew column has been decomposed
by `splitCrew`: pandas explode turns an empty list into a single row
whose crew is NaN (modelled `none`), and a nonempty list into one row
per name; the duration text travels along unchanged. -/
def recordRows (r : EvaRecord) : List (Option (List Char) × List Char) :=
  match splitCrew r.crew with
  | [] => [(none, r.duration)]
  | names => names.map (fun n => (some n, r.duration))

/-- The whole exploded frame, record by record in order. -/
def explodeRows (records : List EvaRecord) : List (Option (List Char) × List Char) :=
  records.flatMap recordRows

/-- Key handling of `groupby('crew')`: rows whose key is NaN are dropped
(the pandas groupby default), the others keep (key, duration_hours). -/
def dropNaRows (rows : List (Option (List Char) × ℚ)) : List (List Char × ℚ) :=
  rows.filterMap (fun p => p.1.map (fun k => (k, p.2)))

/-- Embedding of `summary_duration_by_astronaut`
(src/eva_data_analysis.py:156-173): subset to (crew, duration), split the
crew strings, explode to one row per crew member, `add_duration_hours` on
the exploded rows (failure aborts), drop the text duration column, and
`groupby('crew').sum()` — NaN crew keys dropped, groups summed, keys
ascending. -/
def summary_duration_by_astronaut (records : List EvaRecord) :
    Option (List (List Char × ℚ)) :=
  (applyParse (explodeRows records)).map (fun rows => groupSum (dropNaRows rows))

lemma applyParse_append {α : Type} (l1 l2 : List (α × List Char)) :
    applyParse (l1 ++ l2) = (applyParse l1).bind (fun o1 =>
      (applyParse l2).map (fun o2 => o1 ++ o2)) := by
  induction l1 with
  | nil =>
    rw [List.nil_append]
    cases h2 : applyParse l2 <;> simp [applyParse, h2]
  | cons p rest ih =>
    obtain ⟨a, d⟩ := p
    rw [List.cons_append, applyParse, applyParse, ih]
    cases text_to_duration d <;> cases applyParse rest <;> cases applyParse l2 <;> simp

/-- C7: a successful `summary_duration_by_astronaut` maps each astronaut
name to a unique key and its rows come in strictly ascending
(alphabetical, by code point) key order. -/
theorem summary_sorted_unique (records : List EvaRecord)
    (s : List (List Char × ℚ)) (h : summary_duration_by_astronaut records = some s) :
    (s.map Prod.fst).Pairwise lexLtP ∧ (s.map Prod.fst).Nodup := by
  rcases ha : applyParse (explodeRows records) with _ | rows
  · rw [summary_duration_by_astronaut, ha] at h
    cases h
  · rw [summary_duration_by_astronaut, ha] at h
    simp only [Option.map_some', Option.some_inj] at h
    subst h
    refine ⟨pairwise_groupSum _, ?_⟩
    exact (pairwise_groupSum _).imp (fun hab => lexLtP_ne _ _ hab)

theorem summary_sorted_unique_witness :
    (([("A".toList, ((1:ℤ):ℚ) + ((0:ℤ):ℚ)/60),
       ("B".toList, ((1:ℤ):ℚ) + ((0:ℤ):ℚ)/60)].map Prod.fst).Pairwise lexLtP)
    ∧ (([("A".toList, ((1:ℤ):ℚ) + ((0:ℤ):ℚ)/60),
       ("B".toList, ((1:ℤ):ℚ) + ((0:ℤ):ℚ)/60)].map Prod.fst).Nodup) :=
  summary_sorted_unique [⟨0, "1:00".toList, "B;A".toList⟩]
    [("A".toList, ((1:ℤ):ℚ) + ((0:ℤ):ℚ)/60),
     ("B".toList, ((1:ℤ):ℚ) + ((0:ℤ):ℚ)/60)] (by rfl)

lemma mem_recordRows_duration (r : EvaRecord) (p : Option (List Char) × List Char)
    (hp : p ∈ recordRows r) : p.2 = r.duration := by
  rcases hsc : splitCrew r.crew with _ | ⟨n, names⟩ <;> rw [recordRows, hsc] at hp
  · simp only [List.mem_singleton] at hp
    subst hp
    rfl
  · obtain ⟨nm, hnm, hpr⟩ := List.mem_map.mp hp
    subst hpr
    rfl

lemma sum_map_const_q (l : List (List Char)) (q : ℚ) :
    ((l.map (fun _ => q)).sum) = (l.length : ℚ) * q := by
  induction l with
  | nil => simp
  | cons x xs ih =>
    simp only [List.map_cons, List.sum_cons, List.length_cons, ih]
    push_cast
    ring

lemma sum_dropNa_recordRows (r : EvaRecord) :
    ((dropNaRows ((recordRows r).map
        (fun p => (p.1, (text_to_duration p.2).getD 0)))).map Prod.snd).sum
      = ((splitCrew r.crew).length : ℚ) * (text_to_duration r.duration).getD 0 := by
  rcases hsc : splitCrew r.crew with _ | ⟨n, names⟩ <;> rw [recordRows, hsc]
  · simp [dropNaRows]
  · have hrows : ∀ l : List (List Char),
        dropNaRows ((l.map (fun nm => (some nm, r.duration))).map
          (fun p => (p.1, (text_to_duration p.2).getD 0)))
        = l.map (fun nm => (nm, (text_to_duration r.duration).getD 0)) := by
      intro l
      induction l with
      | nil => rfl
      | cons x xs ih => simp [dropNaRows] at ih ⊢; simp [ih]
    rw [hrows (n :: names), List.map_map]
    show ((n :: names).map (fun _ => (text_to_duration r.duration).getD 0)).sum = _
    rw [sum_map_const_q]

lemma sum_dropNa_explode (records : List EvaRecord) :
    ((dropNaRows ((explodeRows records).map
        (fun p => (p.1, (text_to_duration p.2).getD 0)))).map Prod.snd).sum
      = (records.map (fun r =>
          ((splitCrew r.crew).length : ℚ) * (text_to_duration r.duration).getD 0)).sum := by
  induction records with
  | nil => simp [explodeRows, dropNaRows]
  | cons r rest ih =>
    rw [explodeRows, List.flatMap_cons, ← explodeRows, List.map_append]
    rw [dropNaRows, List.filterMap_append]
    rw [List.map_append, List.sum_append]
    rw [List.map_cons, List.sum_cons]
    have h1 : (List.filterMap (fun p => p.1.map (fun k => (k, p.2)))
          ((recordRows r).map (fun p => (p.1, (text_to_duration p.2).getD 0))) |>.map Prod.snd).sum
        = ((splitCrew r.crew).length : ℚ) * (text_to_duration r.duration).getD 0 :=
      sum_dropNa_recordRows r
    have h2 : (List.filterMap (fun p => p.1.map (fun k => (k, p.2)))
          ((explodeRows rest).map (fun p => (p.1, (text_to_duration p.2).getD 0))) |>.map Prod.snd).sum
        = (rest.map (fun r =>
            ((splitCrew r.crew).length : ℚ) * (text_to_duration r.duration).getD 0)).sum := ih
    rw [h1, h2]

/-- C4: conservation across explode/aggregate — when every duration
parses, the sum of all values of the summary equals the sum, over all
exploded (record, crew-member) pairs, of that record's duration hours
(per record: crew-list length times its parsed duration). -/
theorem summary_conservation (records : List EvaRecord)
    (h : ∀ r ∈ records, (text_to_duration r.duration).isSome = true) :
    ∃ s, summary_duration_by_astronaut records = some s ∧
      (s.map Prod.snd).sum =
        (records.map (fun r =>
          ((splitCrew r.crew).length : ℚ) * (text_to_duration r.duration).getD 0)).sum := by
  have hall : ∀ p ∈ explodeRows records, (text_to_duration p.2).isSome = true := by
    intro p hp
    obtain ⟨r, hr, hpr⟩ := List.mem_flatMap.mp hp
    rw [mem_recordRows_duration r p hpr]
    exact h r hr
  have hap := applyParse_eq_some_of_parses (explodeRows records) hall
  refine ⟨groupSum (dropNaRows ((explodeRows records).map
      (fun p => (p.1, (text_to_duration p.2).getD 0)))), ?_, ?_⟩
  · rw [summary_duration_by_astronaut, hap]
    rfl
  · rw [sum_snd_groupSum, sum_dropNa_explode]

theorem summary_conservation_witness :
    ∃ s, summary_duration_by_astronaut
        [⟨0, "1:00".toList, "A;B;".toList⟩, ⟨1, "2:00".toList, "A".toList⟩] = some s ∧
      (s.map Prod.snd).sum =
        ([⟨0, "1:00".toList, "A;B;".toList⟩,
          (⟨1, "2:00".toList, "A".toList⟩ : EvaRecord)].map (fun r =>
          ((splitCrew r.crew).length : ℚ) * (text_to_duration r.duration).getD 0)).sum :=
  summary_conservation
    [⟨0, "1:00".toList, "A;B;".toList⟩, ⟨1, "2:00".toList, "A".toList⟩] (by decide)

lemma explodeRows_cons (r : EvaRecord) (rest : List EvaRecord) :
    explodeRows (r :: rest) = recordRows r ++ explodeRows rest := by
  rw [explodeRows, List.flatMap_cons, ← explodeRows]

lemma dropNa_parse_filter (records : List EvaRecord)
    (h : ∀ r ∈ records, splitCrew r.crew = [] → (text_to_duration r.duration).isSome = true) :
    (applyParse (explodeRows records)).map dropNaRows
      = (applyParse (explodeRows
          (records.filter (fun r => !(splitCrew r.crew).isEmpty)))).map dropNaRows := by
  induction records with
  | nil => rfl
  | cons r rest ih =>
    have ihr := ih (fun x hx hx2 => h x (List.mem_cons_of_mem r hx) hx2)
    rcases hsc : splitCrew r.crew with _ | ⟨n, names⟩
    · have hparse := h r (List.mem_cons_self r rest) hsc
      rcases htd : text_to_duration r.duration with _ | q
      · rw [htd] at hparse
        cases hparse
      · have hfilter : (r :: rest).filter (fun r => !(splitCrew r.crew).isEmpty)
            = rest.filter (fun r => !(splitCrew r.crew).isEmpty) := by
          rw [List.filter_cons]
          simp [hsc]
        rw [hfilter]
        simp only [explodeRows_cons, applyParse_append]
        have hblock : applyParse (recordRows r) = some [(none, q)] := by
          rw [recordRows, hsc]
          show (text_to_duration r.duration).bind _ = _
          rw [htd]
          rfl
        rw [hblock, ← ihr]
        cases applyParse (explodeRows rest) <;> simp [dropNaRows]
    · have hfilter : (r :: rest).filter (fun r => !(splitCrew r.crew).isEmpty)
          = r :: rest.filter (fun r => !(splitCrew r.crew).isEmpty) := by
        rw [List.filter_cons]
        simp [hsc]
      rw [hfilter]
      simp only [explodeRows_cons, applyParse_append]
      cases hb : applyParse (recordRows r) with
      | none => rfl
      | some b =>
        simp only [Option.some_bind]
        cases h1 : applyParse (explodeRows rest) with
        | none =>
          cases h2 : applyParse (explodeRows
              (rest.filter (fun r => !(splitCrew r.crew).isEmpty))) with
          | none => rfl
          | some c =>
            rw [h1, h2] at ihr
            simp at ihr
        | some o2 =>
          cases h2 : applyParse (explodeRows
              (rest.filter (fun r => !(splitCrew r.crew).isEmpty))) with
          | none =>
            rw [h1, h2] at ihr
            simp at ihr
          | some c =>
            rw [h1, h2] at ihr
            simp only [Option.map_some', Option.some_inj] at ihr
            simp only [Option.map_some']
            rw [Option.some_inj]
            rw [dropNaRows, dropNaRows, List.filterMap_append, List.filterMap_append]
            rw [dropNaRows] at ihr
            rw [ihr, dropNaRows]

/-- C8 counterexample: a record with an empty decomposed crew list can
still raise — its duration text is parsed after the explode step and
before groupby drops the NaN crew key — so with a malformed duration the
summary including the record fails while the summary without it
succeeds, and the two differ. -/
theorem summary_empty_crew_error :
    summary_duration_by_astronaut [⟨0, "bad".toList, "  ".toList⟩] = none
    ∧ summary_duration_by_astronaut
        (([⟨0, "bad".toList, "  ".toList⟩] : List EvaRecord).filter
          (fun r => !(splitCrew r.crew).isEmpty)) = some []
    ∧ summary_duration_by_astronaut [⟨0, "bad".toList, "  ".toList⟩] ≠
        summary_duration_by_astronaut
          (([⟨0, "bad".toList, "  ".toList⟩] : List EvaRecord).filter
            (fun r => !(splitCrew r.crew).isEmpty)) :=
  ⟨by rfl, by rfl, by decide⟩

/-- C8 (amended): a record whose decomposed crew list is empty (crew
blank, whitespace-only, or consisting only of separators) contributes no
entries to the summary and raises no error, provided its duration text
parses (a malformed duration is still fatal, as it is for any record):
the summary over a collection including such records equals the summary
over the collection with them removed. -/
theorem summary_empty_crew_vanishes (records : List EvaRecord)
    (h : ∀ r ∈ records, splitCrew r.crew = [] → (text_to_duration r.duration).isSome = true) :
    summary_duration_by_astronaut records =
      summary_duration_by_astronaut
        (records.filter (fun r => !(splitCrew r.crew).isEmpty)) := by
  have haux := dropNa_parse_filter records h
  rw [summary_duration_by_astronaut, summary_duration_by_astronaut]
  have hsplit : ∀ o : Option (List (Option (List Char) × ℚ)),
      Option.map (fun rows => groupSum (dropNaRows rows)) o
        = Option.map groupSum (Option.map dropNaRows o) := by
    intro o
    cases o <;> rfl
  rw [hsplit, hsplit, haux]

theorem summary_empty_crew_vanishes_witness :
    summary_duration_by_astronaut
        [⟨0, "0:30".toList, "  ".toList⟩, ⟨1, "1:00".toList, "A".toList⟩] =
      summary_duration_by_astronaut
        ([⟨0, "0:30".toList, "  ".toList⟩, ⟨1, "1:00".toList, "A".toList⟩].filter
          (fun r => !(splitCrew r.crew).isEmpty)) :=
  summary_empty_crew_vanishes
    [⟨0, "0:30".toList, "  ".toList⟩, ⟨1, "1:00".toList, "A".toList⟩] (by decide)

lemma not_space_of_digit (c : Char) (h : Char.isDigit c = true) : pySpace c = false := by
  cases hb : pySpace c
  · rfl
  · exfalso
    unfold pySpace at hb
    simp only [Bool.or_eq_true, beq_iff_eq] at hb
    rcases hb with ((((h1 | h1) | h1) | h1) | h1) | h1 <;> subst h1 <;>
      exact absurd h (by decide)

lemma dropWhile_eq_self_of_all (p : Char → Bool) (s : List Char)
    (h : ∀ c ∈ s, p c = false) : s.dropWhile p = s := by
  cases s with
  | nil => rfl
  | cons c cs =>
    rw [List.dropWhile_cons, h c (List.mem_cons_self c cs)]
    simp

lemma pyStrip_eq_self (s : List Char) (h : ∀ c ∈ s, pySpace c = false) :
    pyStrip s = s := by
  unfold pyStrip
  rw [dropWhile_eq_self_of_all pySpace s h]
  rw [dropWhile_eq_self_of_all pySpace s.reverse
    (fun c hc => h c (List.mem_reverse.mp hc))]
  exact List.reverse_reverse s

lemma pyInt_digits (s : List Char) (hne : s ≠ []) (hd : s.all Char.isDigit = true) :
    pyInt s = some ((digitsToNat s : ℤ)) := by
  have hall : ∀ c ∈ s, Char.isDigit c = true := by
    intro c hc
    exact List.all_eq_true.mp hd c hc
  have hs : pyStrip s = s :=
    pyStrip_eq_self s (fun c hc => not_space_of_digit c (hall c hc))
  cases s with
  | nil => exact absurd rfl hne
  | cons c rest =>
    have hcd : Char.isDigit c = true := hall c (List.mem_cons_self c rest)
    unfold pyInt
    rw [hs]
    show (if (c == '-') = true then (parseDigits rest).map (fun n => -(n : ℤ))
      else if (c == '+') = true then (parseDigits rest).map (fun n => (n : ℤ))
      else (parseDigits (c :: rest)).map (fun n => (n : ℤ)))
      = some ((digitsToNat (c :: rest) : ℤ))
    have h1 : ¬ ((c == '-') = true) := by
      intro hb
      rw [eq_of_beq hb] at hcd
      exact absurd hcd (by decide)
    have h2 : ¬ ((c == '+') = true) := by
      intro hb
      rw [eq_of_beq hb] at hcd
      exact absurd hcd (by decide)
    rw [if_neg h1, if_neg h2, parseDigits, if_pos ⟨List.cons_ne_nil c rest, hd⟩]
    rfl

/-- Well-formed clock duration as the spec describes the data: a
nonempty digit string, one colon, a nonempty digit string (the H:MM /
HH:MM shape). -/
def wellFormedHMM (s : List Char) : Bool :=
  match splitP colonP s with
  | [h, m] => (!h.isEmpty) && h.all Char.isDigit && (!m.isEmpty) && m.all Char.isDigit
  | _ => false

lemma wellFormedHMM_parse (s : List Char) (h : wellFormedHMM s = true) :
    ∃ q, text_to_duration s = some q ∧ 0 ≤ q := by
  unfold wellFormedHMM at h
  rcases hsp : splitP colonP s with _ | ⟨p1, rest⟩
  · rw [hsp] at h
    cases h
  rcases rest with _ | ⟨p2, rest2⟩
  · rw [hsp] at h
    cases h
  rcases rest2 with _ | ⟨p3, rest3⟩
  case cons.cons.cons =>
    rw [hsp] at h
    cases h
  rw [hsp] at h
  simp only [Bool.and_eq_true, Bool.not_eq_true'] at h
  obtain ⟨⟨⟨h1e, h1d⟩, h2e⟩, h2d⟩ := h
  have hp1 : p1 ≠ [] := by
    intro hh
    rw [hh] at h1e
    cases h1e
  have hp2 : p2 ≠ [] := by
    intro hh
    rw [hh] at h2e
    cases h2e
  refine ⟨((digitsToNat p1 : ℤ) : ℚ) + ((digitsToNat p2 : ℤ) : ℚ) / 60, ?_, ?_⟩
  · unfold text_to_duration
    rw [hsp]
    show ((pyInt p1).bind fun hh => (pyInt p2).bind fun mm =>
      some ((hh : ℚ) + (mm : ℚ) / 60)) = _
    rw [pyInt_digits p1 hp1 h1d, pyInt_digits p2 hp2 h2d]
    rfl
  · push_cast
    positivity

/-- Running pairing of dates with the cumulative sum, the series plotted
by `plt.plot(df['date'], df['cumulative_time'])` where the code sets
`df['cumulative_time'] = df['duration_hours'].cumsum()`
(src/eva_data_analysis.py:81-83): one output point per row, the second
component being the running total so far. -/
def seriesFrom (acc : ℚ) : List (EvaRecord × ℚ) → List (ℤ × ℚ)
  | [] => []
  | (r, q) :: rest => (r.date, acc + q) :: seriesFrom (acc + q) rest

/-- Embedding of the series computation of `plot_cumulative_time_in_space`
(src/eva_data_analysis.py:64-88): `add_duration_hours` on the input frame
(failure aborts), then the cumulative sum of `duration_hours` paired with
the dates. -/
def plot_cumulative_time_in_space (df : List EvaRecord) : Option (List (ℤ × ℚ)) :=
  (add_duration_hours df).map (seriesFrom 0)

lemma seriesFrom_length (acc : ℚ) (rows : List (EvaRecord × ℚ)) :
    (seriesFrom acc rows).length = rows.length := by
  induction rows generalizing acc with
  | nil => rfl
  | cons p rest ih =>
    obtain ⟨r, q⟩ := p
    rw [seriesFrom, List.length_cons, List.length_cons, ih]

lemma seriesFrom_chain (acc : ℚ) (rows : List (EvaRecord × ℚ))
    (h : ∀ p ∈ rows, 0 ≤ p.2) :
    List.Chain' (· ≤ ·) ((seriesFrom acc rows).map Prod.snd) := by
  induction rows generalizing acc with
  | nil => simp [seriesFrom]
  | cons p rest ih =>
    obtain ⟨r, q⟩ := p
    rw [seriesFrom, List.map_cons, List.chain'_cons']
    constructor
    · intro y hy
      cases rest with
      | nil => simp [seriesFrom] at hy
      | cons p2 rest2 =>
        obtain ⟨r2, q2⟩ := p2
        simp only [seriesFrom, List.map_cons, List.head?_cons, Option.mem_def,
          Option.some_inj] at hy
        have hq2 : 0 ≤ q2 := h (r2, q2) (List.mem_cons_of_mem _ (List.mem_cons_self _ _))
        rw [← hy]
        exact le_add_of_nonneg_right hq2
    · exact ih (acc + q) (fun x hx => h x (List.mem_cons_of_mem _ hx))

lemma seriesFrom_getLast (acc : ℚ) (rows : List (EvaRecord × ℚ)) (hne : rows ≠ []) :
    ((seriesFrom acc rows).getLast?).map Prod.snd
      = some (acc + (rows.map Prod.snd).sum) := by
  induction rows generalizing acc with
  | nil => exact absurd rfl hne
  | cons p rest ih =>
    obtain ⟨r, q⟩ := p
    cases rest with
    | nil => simp [seriesFrom]
    | cons p2 rest2 =>
      have ih' := ih (acc + q) (List.cons_ne_nil p2 rest2)
      obtain ⟨r2, q2⟩ := p2
      simp only [seriesFrom] at ih' ⊢
      rw [List.getLast?_cons_cons, ih']
      congr 1
      simp only [List.map_cons, List.sum_cons]
      ring

/-- C3: on a frame whose durations are all well-formed clock strings, the
cumulative series has one point per input record, its cumulative-hours
components are non-decreasing, the final value is the sum of the parsed
duration hours of all input records, and the first point's cumulative
value is the first record's own duration. -/
theorem plot_cumulative_spec (df : List EvaRecord)
    (h : ∀ r ∈ df, wellFormedHMM r.duration = true) :
    ∃ out, plot_cumulative_time_in_space df = some out
      ∧ out.length = df.length
      ∧ List.Chain' (· ≤ ·) (out.map Prod.snd)
      ∧ (df ≠ [] → (out.getLast?).map Prod.snd
          = some ((df.map (fun r => (text_to_duration r.duration).getD 0)).sum))
      ∧ (∀ r0, df.head? = some r0 →
          (out.head?).map Prod.snd = text_to_duration r0.duration) := by
  have hparse : ∀ p ∈ df.map (fun r => (r, r.duration)),
      (text_to_duration p.2).isSome = true := by
    intro p hp
    obtain ⟨r, hr, hpr⟩ := List.mem_map.mp hp
    obtain ⟨q, hq, _⟩ := wellFormedHMM_parse r.duration (h r hr)
    subst hpr
    simp [hq]
  have hadd : add_duration_hours df
      = some ((df.map (fun r => (r, r.duration))).map
          (fun p => (p.1, (text_to_duration p.2).getD 0))) :=
    applyParse_eq_some_of_parses _ hparse
  refine ⟨seriesFrom 0 ((df.map (fun r => (r, r.duration))).map
      (fun p => (p.1, (text_to_duration p.2).getD 0))), ?_, ?_, ?_, ?_, ?_⟩
  · rw [plot_cumulative_time_in_space, hadd]
    rfl
  · rw [seriesFrom_length, List.length_map, List.length_map]
  · refine seriesFrom_chain 0 _ ?_
    intro p hp
    obtain ⟨x, hx, hxp⟩ := List.mem_map.mp hp
    obtain ⟨r, hr, hrx⟩ := List.mem_map.mp hx
    obtain ⟨q, hq, hqnn⟩ := wellFormedHMM_parse r.duration (h r hr)
    subst hxp
    subst hrx
    simpa [hq] using hqnn
  · intro hne
    have hrne : ((df.map (fun r => (r, r.duration))).map
        (fun p => (p.1, (text_to_duration p.2).getD 0))) ≠ [] := by
      intro hh
      exact hne (List.map_eq_nil_iff.mp (List.map_eq_nil_iff.mp hh))
    rw [seriesFrom_getLast 0 _ hrne, zero_add, List.map_map, List.map_map]
    rfl
  · intro r0 h0
    cases df with
    | nil => cases h0
    | cons r1 tail =>
      simp only [List.head?_cons, Option.some_inj] at h0
      subst h0
      obtain ⟨q0, hq0, _⟩ :=
        wellFormedHMM_parse r1.duration (h r1 (List.mem_cons_self r1 tail))
      have hhead : ((seriesFrom 0 (((r1 :: tail).map (fun r => (r, r.duration))).map
          (fun p => (p.1, (text_to_duration p.2).getD 0)))).head?).map Prod.snd
          = some (0 + (text_to_duration r1.duration).getD 0) := rfl
      rw [hhead, hq0, zero_add]
      rfl

theorem plot_cumulative_spec_witness :
    ∃ out, plot_cumulative_time_in_space [⟨0, "1:00".toList, "A".toList⟩] = some out
      ∧ out.length = ([⟨0, "1:00".toList, "A".toList⟩] : List EvaRecord).length
      ∧ List.Chain' (· ≤ ·) (out.map Prod.snd)
      ∧ (([⟨0, "1:00".toList, "A".toList⟩] : List EvaRecord) ≠ [] →
          (out.getLast?).map Prod.snd
          = some ((([⟨0, "1:00".toList, "A".toList⟩] : List EvaRecord).map
              (fun r => (text_to_duration r.duration).getD 0)).sum))
      ∧ (∀ r0 : EvaRecord, ([⟨0, "1:00".toList, "A".toList⟩] : List EvaRecord).head? = some r0 →
          (out.head?).map Prod.snd = text_to_duration r0.duration) :=
  plot_cumulative_spec [⟨0, "1:00".toList, "A".toList⟩] (by decide)

/-- C10: `text_to_duration` performs no range or sign validation: the
minute part 90 (which exceeds 59) is accepted, yielding 5/2 for the
string 1:90, and a negative hour part is accepted, yielding the negative
value -1/2 for the string -1:30. -/
theorem text_to_duration_no_range_check :
    text_to_duration ("1:90".toList) = some (5/2)
    ∧ text_to_duration ("-1:30".toList) = some (-(1/2))
    ∧ ((-(1/2) : ℚ) < 0)
    ∧ ((59 : ℤ) < 90 ∧ pyInt ("90".toList) = some 90) := by
  refine ⟨?_, ?_, by norm_num, by decide⟩
  · show some (((1:ℤ):ℚ) + ((90:ℤ):ℚ)/60) = some (5/2)
    norm_num
  · show some ((((-1):ℤ):ℚ) + ((30:ℤ):ℚ)/60) = some (-(1/2))
    norm_num
